import Mathlib

/- Verification development for the Arduino ADB host codec.

   Sources embedded here:
   - src/adb_host/adb_host.ino : pulse primitives and the command transmitter
     (ADBattention, ADBsync, ADBstartstopBit, ADBtruePulse, ADBfalsePulse,
     sendCommandByte) and its duration-to-bit conversion loop;
   - src/unnamed/part_000 : the frame-recovery decode phase of relayADB
     (classification, start/stop scans, left shift, viableData extraction,
     byte assembly, serial output of registerByte).

   Machine integers are modelled as Nat with explicit % 256 where uint8_t
   overflow matters.  Arrays are modelled as lists; reads that the C code
   performs past the end of rawData are modelled by an explicit parameter
   mem giving the bytes that follow the array in memory, and the two scan
   loops, which the C code does not bound by the array length, are modelled
   as Option-valued searches where none marks a scan that exhausts the
   buffer and would run past its end. -/

namespace ADB

/-- Line levels driven on the single ADB wire. -/
inductive Level where
| low : Level
| high : Level
deriving DecidableEq

/-- One timed segment of the transmitted waveform: the level driven and the
    number of microseconds it is held before the next transition. -/
abbrev Seg := Level × Nat

/-- ADBattention, adb_host.ino lines 84-88: the line is pulled low for 800us. -/
def ADBattention : List Seg := [(Level.low, 800)]

/-- ADBsync, adb_host.ino lines 91-95: the line goes high for 65us. -/
def ADBsync : List Seg := [(Level.high, 65)]

/-- ADBstartstopBit, adb_host.ino lines 112-119: low for 70us, then the line
    is released high (held, with no further timed delay inside the routine). -/
def ADBstartstopBit : List Seg := [(Level.low, 70)]

/-- ADBtruePulse, adb_host.ino lines 121-126: low 35us then high 65us. -/
def ADBtruePulse : List Seg := [(Level.low, 35), (Level.high, 65)]

/-- ADBfalsePulse, adb_host.ino lines 128-133: low 65us then high 35us. -/
def ADBfalsePulse : List Seg := [(Level.low, 65), (Level.high, 35)]

/-- bitRead(w, i), the Arduino macro (w >> i) & 1, as a boolean. -/
def bitRead (w i : Nat) : Bool := w.testBit i

/-- binaryBoolArray as filled by sendCommandByte, adb_host.ino lines 176-179:
    the loop stores bitRead(byteToSend, i) at index 7 - i, so index j holds
    bit 7 - j and the most significant bit sits first. -/
def binaryBoolArray (w : Nat) : List Bool :=
  (List.range 8).map (fun j => bitRead w (7 - j))

/-- sendCommandByte, adb_host.ino lines 172-197 (identical loop structure in
    src/unnamed/part_000 lines 145-169): attention, sync, one true or false
    pulse per entry of binaryBoolArray in order, then the stop bit. -/
def sendCommandByte (w : Nat) : List Seg :=
  ADBattention ++ ADBsync ++
    ((binaryBoolArray w).flatMap
      (fun b => if b then ADBtruePulse else ADBfalsePulse)) ++
    ADBstartstopBit

/-- The bit cell exactly as the specification words it: a true cell is low
    35us then high 65us, a false cell is low 65us then high 35us.  Used to
    compare the transmitter against the specified wire sequence. -/
def specCell (b : Bool) : List Seg :=
  if b then [(Level.low, 35), (Level.high, 65)]
  else [(Level.low, 65), (Level.high, 35)]

/-- The low-phase duration of a bit cell: the duration of its first timed
    segment, which is what pulseIn(ADB_IN, LOW, ...) records on the receiver. -/
def lowPhase (cell : List Seg) : Nat := (cell.headD (Level.high, 0)).2

/-- BITBUFFERSIZE, src/unnamed/part_000 line 50. -/
def BITBUFFERSIZE : Nat := 100

/-- The duration-to-bit conversion applied to each rawData entry,
    src/unnamed/part_000 lines 202-207: a duration within [25, 45] becomes 1,
    every other value, including the long 65us pulse and the timeout sentinel
    0, becomes 0. -/
def classifyDuration (d : Nat) : Nat :=
  if 25 ≤ d ∧ d ≤ 45 then 1 else 0

/-- rawData after the classification loop of src/unnamed/part_000
    lines 202-207. -/
def classified (buf : List Nat) : List Nat := buf.map classifyDuration

/-- The duration-to-bit conversion of adb_host.ino lines 219-224, which
    writes 1 on [30, 40], writes 0 on [60, 70], and otherwise leaves the
    previous (stale) contents of registerBit[i], passed here as prev. -/
def classifyDurationIno (d prev : Nat) : Nat :=
  if 30 ≤ d ∧ d ≤ 40 then 1
  else if 60 ≤ d ∧ d ≤ 70 then 0
  else prev

/-- The forward start-bit scan, src/unnamed/part_000 lines 214-217: the loop
    increments startBitIndex while rawData[startBitIndex] == 0.  none models a
    scan that exhausts all BITBUFFERSIZE entries without finding a nonzero
    one, in which case the C loop keeps indexing past the end of the array. -/
def startBitIndex? (cls : List Nat) : Option Nat :=
  cls.findIdx? (fun b => b != 0)

/-- The backward stop-bit scan, src/unnamed/part_000 lines 222-225:
    endBitIndex starts at BITBUFFERSIZE - 1 and is decremented while
    rawData[endBitIndex] == 0.  A reverse search returning position j
    corresponds to index length - 1 - j; none models a scan that decrements
    below index 0, where the uint8_t counter wraps and the C loop reads out
    of bounds. -/
def endBitIndex? (cls : List Nat) : Option Nat :=
  (cls.reverse.findIdx? (fun b => b != 0)).map (fun j => cls.length - 1 - j)

/-- The left-shift copy, src/unnamed/part_000 lines 230-232:
    rawData[i] = rawData[i + startBitIndex + 1].  Whenever
    i + startBitIndex + 1 reaches past the array (the loop always produces
    such i, since i runs to BITBUFFERSIZE - 1) the C code reads whatever
    bytes happen to follow rawData in memory; the parameter mem supplies
    those bytes, so theorems can state which results are independent of
    them. -/
def shiftedData (mem : Nat → Nat) (cls : List Nat) (startBitIndex i : Nat) : Nat :=
  if i + startBitIndex + 1 < BITBUFFERSIZE then cls.getD (i + startBitIndex + 1) 0
  else mem (i + startBitIndex + 1)

/-- endBitIndex -= (startBitIndex + 1), src/unnamed/part_000 line 236, on a
    uint8_t: the subtraction wraps modulo 256 (both operands are at most
    BITBUFFERSIZE - 1 at this point). -/
def endAdj (startBitIndex endBitIndex : Nat) : Nat :=
  (endBitIndex + 256 - (startBitIndex + 1)) % 256

/-- viableData after the copy loop of src/unnamed/part_000 lines 242-247: the
    first endBitIndex entries of the shifted array, where endBitIndex is the
    adjusted value.  (The C declaration gives the array only endBitIndex - 1
    cells, so the final copy iteration writes one past its end; the list here
    holds the endBitIndex values the loop copies.) -/
def viableData (mem : Nat → Nat) (cls : List Nat) (startBitIndex endAdjusted : Nat) :
    List Nat :=
  (List.range endAdjusted).map (shiftedData mem cls startBitIndex)

/-- viableBytes = endBitIndex / 8, src/unnamed/part_000 line 252. -/
def viableBytes (endAdjusted : Nat) : Nat := endAdjusted / 8

/-- The inner assembly loop of src/unnamed/part_000 lines 266-270: tempByte
    starts at 0 and, for i from ((currentByte+1)*8)-8 up to (currentByte+1)*8
    - 1, the bit viableData[i] is added and the byte is shifted left once,
    both on a uint8_t (the two truncations collapse into the single % 256
    applied after the doubling). -/
def storedByte (vd : List Nat) (currentByte : Nat) : Nat :=
  (List.range 8).foldl
    (fun t k => ((t + vd.getD ((currentByte + 1) * 8 - 8 + k) 0) * 2) % 256) 0

/-- The MSB-first value of the 8 bits of group currentByte of a bit list:
    bit ((currentByte+1)*8 - 8 + k) carries weight 2 ^ (7 - k). -/
def msbFirstVal (vd : List Nat) (currentByte : Nat) : Nat :=
  (List.range 8).foldl
    (fun a k => a + vd.getD ((currentByte + 1) * 8 - 8 + k) 0 * 2 ^ (7 - k)) 0

/-- The decode phase of relayADB, src/unnamed/part_000 lines 202-274, as a
    function of the freshly sampled rawData contents: classification, the two
    scans, the left shift, viableData extraction and byte assembly.  Returns
    the list of bytes the store loop writes (byte number currentByte for
    currentByte < viableBytes), or none when a scan exhausts the buffer and
    the C code would run past it. -/
def decodedBytes (mem : Nat → Nat) (buf : List Nat) : Option (List Nat) :=
  let cls := classified buf
  match startBitIndex? cls, endBitIndex? cls with
  | some s, some e =>
      some ((List.range (viableBytes (endAdj s e))).map
        (storedByte (viableData mem cls s (endAdj s e))))
  | _, _ => none

/-- registerByte after the store loop of src/unnamed/part_000 lines 265-274:
    entries below the number of freshly assembled bytes are overwritten, the
    rest keep their previous values (registerByte is a global that persists
    across relayADB calls); only its 8 slots exist. -/
def registerByteAfter (reg fresh : List Nat) : List Nat :=
  (List.range 8).map (fun i => if i < fresh.length then fresh.getD i 0 else reg.getD i 0)

/-- One relayADB call as seen over the serial port, src/unnamed/part_000
    lines 185-322: the sampled buffer is decoded into registerByte, whose
    previous contents persist past the stored count, and the print loop of
    lines 316-321 then emits all eight entries unconditionally.  The printed
    sequence equals the new registerByte contents. -/
def relayADB (mem : Nat → Nat) (reg buf : List Nat) : Option (List Nat) :=
  (decodedBytes mem buf).map (registerByteAfter reg)

/-- Durations of the eight bit cells that encode byte v MSB-first as the
    receiver samples them: the low phase of a true cell lasts 35us, of a
    false cell 65us. -/
def cellDurations (v : Nat) : List Nat :=
  (List.range 8).map (fun k => if v.testBit (7 - k) then 35 else 65)

/-- The classified bit pattern of byte v, MSB first. -/
def bitsOfByte (v : Nat) : List Nat :=
  (List.range 8).map (fun k => if v.testBit (7 - k) then 1 else 0)

/-- A full 100-entry raw buffer holding one start marker, the 24 bit cells of
    three bytes, one stop marker, and timeout sentinels. -/
def threeByteBuffer (v0 v1 v2 : Nat) : List Nat :=
  35 :: (cellDurations v0 ++ cellDurations v1 ++ cellDurations v2 ++
    (35 :: List.replicate 74 0))

/-- A 100-entry raw buffer with a single in-window pulse and 99 timeout
    sentinels: start and stop scan both land on index 0. -/
def singlePulseBuffer : List Nat := 35 :: List.replicate 99 0

/-- A 100-entry raw buffer whose frame carries 16 payload bits, all ones. -/
def twoByteFrame : List Nat :=
  35 :: (List.replicate 16 35 ++ (35 :: List.replicate 82 0))

/-- A 100-entry raw buffer whose frame carries 8 payload bits, all ones. -/
def oneByteFrame : List Nat :=
  35 :: (List.replicate 8 35 ++ (35 :: List.replicate 90 0))

/-- A 100-entry raw buffer whose frame carries 20 payload bits, all ones:
    the interior payload is not a multiple of 8. -/
def twentyBitFrame : List Nat :=
  35 :: (List.replicate 20 35 ++ (35 :: List.replicate 78 0))

/-! ### Helper lemmas -/

/-- The classification loop acts pointwise; out-of-range reads default to 0 on
    both sides, since classifyDuration 0 = 0. -/
theorem classified_getD (buf : List Nat) (n : Nat) :
    (classified buf).getD n 0 = classifyDuration (buf.getD n 0) := by
  have h := List.getD_map buf 0 (n := n) classifyDuration
  simpa [classified, show classifyDuration 0 = 0 from rfl] using h

/-- getD on a mapped range picks the function value. -/
theorem getD_map_range (f : Nat → Nat) (m n : Nat) (h : n < m) :
    ((List.range m).map f).getD n 0 = f n := by
  have h1 : n < ((List.range m).map f).length := by simpa using h
  rw [List.getD_eq_getElem?_getD, List.getElem?_eq_getElem h1]
  simp

/-- getD past the left part of an append reads the right part. -/
theorem getD_append_right (A B : List Nat) (n : Nat) (h : A.length ≤ n) :
    (A ++ B).getD n 0 = B.getD (n - A.length) 0 := by
  rw [List.getD_eq_getElem?_getD, List.getD_eq_getElem?_getD, List.getElem?_append]
  rw [if_neg (by omega)]

/-- getD below the take boundary is unaffected by the take. -/
theorem getD_take (l : List Nat) (m n : Nat) (h : n < m) :
    (l.take m).getD n 0 = l.getD n 0 := by
  rw [List.getD_eq_getElem?_getD, List.getD_eq_getElem?_getD, List.getElem?_take,
    if_pos h]

/-- getD into a reversed list. -/
theorem getD_reverse (l : List Nat) (j : Nat) (hj : j < l.length) :
    l.reverse.getD j 0 = l.getD (l.length - 1 - j) 0 := by
  have hj1 : j < l.reverse.length := by simpa using hj
  have hj2 : l.length - 1 - j < l.length := by omega
  rw [List.getD_eq_getElem?_getD, List.getD_eq_getElem?_getD,
    List.getElem?_eq_getElem hj1, List.getElem?_eq_getElem hj2]
  simp [List.getElem_reverse]

/-- A successful forward scan stops at an in-range nonzero entry and every
    earlier entry is zero: the C while loop visits exactly the indices below
    the returned one. -/
theorem startBitIndex?_spec {cls : List Nat} {s : Nat}
    (h : startBitIndex? cls = some s) :
    s < cls.length ∧ cls.getD s 0 ≠ 0 ∧ ∀ j, j < s → cls.getD j 0 = 0 := by
  unfold startBitIndex? at h
  rw [List.findIdx?_eq_some_iff_findIdx_eq] at h
  obtain ⟨hlt, hidx⟩ := h
  subst hidx
  refine ⟨hlt, ?_, ?_⟩
  · have hp := List.findIdx_getElem (w := hlt)
    rw [List.getD_eq_getElem?_getD, List.getElem?_eq_getElem hlt]
    simpa using hp
  · intro j hj
    have hjlen : j < cls.length := lt_trans hj hlt
    have hp := List.not_of_lt_findIdx hj
    rw [List.getD_eq_getElem?_getD, List.getElem?_eq_getElem hjlen]
    simpa using hp

/-- If some in-range entry is nonzero, the forward scan succeeds at or before
    that entry. -/
theorem startBitIndex?_le_of_nonzero {cls : List Nat} {i : Nat}
    (hi : i < cls.length) (hne : cls.getD i 0 ≠ 0) :
    ∃ s, startBitIndex? cls = some s ∧ s ≤ i := by
  have hp : ((fun b => b != 0) cls[i]) = true := by
    rw [List.getD_eq_getElem?_getD, List.getElem?_eq_getElem hi] at hne
    simpa using hne
  have hex : ∃ x ∈ cls, (fun b => b != 0) x = true := ⟨cls[i], List.getElem_mem hi, hp⟩
  refine ⟨List.findIdx (fun b => b != 0) cls,
    List.findIdx?_eq_some_of_exists hex, ?_⟩
  by_contra hgt
  push_neg at hgt
  have hfalse := List.not_of_lt_findIdx hgt
  have hp2 : (cls[i] != 0) = true := hp
  rw [hp2] at hfalse
  exact absurd hfalse (by decide)

/-- A successful backward scan stops at an in-range nonzero entry and every
    later entry is zero. -/
theorem endBitIndex?_spec {cls : List Nat} {e : Nat}
    (h : endBitIndex? cls = some e) :
    e < cls.length ∧ cls.getD e 0 ≠ 0 ∧
      ∀ j, e < j → j < cls.length → cls.getD j 0 = 0 := by
  unfold endBitIndex? at h
  rw [Option.map_eq_some'] at h
  obtain ⟨j0, hj0, hback⟩ := h
  have hrev : startBitIndex? cls.reverse = some j0 := hj0
  obtain ⟨hlt, hne, hzero⟩ := startBitIndex?_spec hrev
  rw [List.length_reverse] at hlt
  subst hback
  have hlen1 : 1 ≤ cls.length := by omega
  refine ⟨by omega, ?_, ?_⟩
  · rw [getD_reverse cls j0 hlt] at hne
    exact hne
  · intro j hj hjlen
    have hk : cls.length - 1 - j < j0 := by omega
    have hz := hzero (cls.length - 1 - j) hk
    rw [getD_reverse cls (cls.length - 1 - j) (by omega)] at hz
    have hidx : cls.length - 1 - (cls.length - 1 - j) = j := by omega
    rw [hidx] at hz
    exact hz

/-- If some in-range entry is nonzero, the backward scan succeeds at or after
    that entry. -/
theorem endBitIndex?_ge_of_nonzero {cls : List Nat} {j : Nat}
    (hj : j < cls.length) (hne : cls.getD j 0 ≠ 0) :
    ∃ e, endBitIndex? cls = some e ∧ j ≤ e := by
  have hrevlen : cls.length - 1 - j < cls.reverse.length := by
    rw [List.length_reverse]; omega
  have hrevne : cls.reverse.getD (cls.length - 1 - j) 0 ≠ 0 := by
    rw [getD_reverse cls (cls.length - 1 - j) (by omega)]
    have hidx : cls.length - 1 - (cls.length - 1 - j) = j := by omega
    rw [hidx]
    exact hne
  obtain ⟨s, hs, hsle⟩ := startBitIndex?_le_of_nonzero hrevlen hrevne
  have hslen : s < cls.length := by
    have := (startBitIndex?_spec hs).1
    rw [List.length_reverse] at this
    exact this
  refine ⟨cls.length - 1 - s, ?_, by omega⟩
  unfold endBitIndex?
  unfold startBitIndex? at hs
  rw [hs, Option.map_some']

/-- The viableData list equals the classified samples strictly between the
    start index and the stop index: the left shift discards the start marker
    and the adjusted length stops short of the stop marker, and no
    out-of-bounds memory enters the copied range. -/
theorem viableData_eq_slice (mem : Nat → Nat) (cls : List Nat) (s e : Nat)
    (hlen : cls.length = 100) (hse : s < e) (he : e < 100) :
    viableData mem cls s (endAdj s e) = (cls.drop (s + 1)).take (e - (s + 1)) := by
  have hadj : endAdj s e = e - (s + 1) := by unfold endAdj; omega
  rw [hadj]
  apply List.ext_getElem
  · simp only [viableData, List.length_map, List.length_range, List.length_take,
      List.length_drop, hlen]
    omega
  · intro n h1 h2
    have hn : n < e - (s + 1) := by
      simpa [viableData] using h1
    simp only [viableData, List.getElem_map, List.getElem_range, List.getElem_take,
      List.getElem_drop]
    unfold shiftedData
    have hidx : n + s + 1 = s + 1 + n := by omega
    rw [hidx]
    rw [if_pos (by unfold BITBUFFERSIZE; omega)]
    rw [List.getD_eq_getElem?_getD, List.getElem?_eq_getElem (by omega)]
    simp

/-- storedByte depends only on the eight getD reads of its group. -/
theorem storedByte_congr {vd1 vd2 : List Nat} {c1 c2 : Nat}
    (h : ∀ k, k < 8 →
      vd1.getD ((c1 + 1) * 8 - 8 + k) 0 = vd2.getD ((c2 + 1) * 8 - 8 + k) 0) :
    storedByte vd1 c1 = storedByte vd2 c2 := by
  have hrange : List.range 8 = [0, 1, 2, 3, 4, 5, 6, 7] := by decide
  simp only [storedByte, hrange, List.foldl_cons, List.foldl_nil]
  rw [h 0 (by omega), h 1 (by omega), h 2 (by omega), h 3 (by omega),
    h 4 (by omega), h 5 (by omega), h 6 (by omega), h 7 (by omega)]

/-- Byte group 0 of an append with a full first group reads the first part. -/
theorem storedByte_append_first (A B : List Nat) (hA : A.length = 8) :
    storedByte (A ++ B) 0 = storedByte A 0 := by
  refine storedByte_congr ?_
  intro k hk
  rw [List.getD_append]
  omega

/-- Dropping one full 8-bit group in front shifts the byte number by one. -/
theorem storedByte_group_shift (A B : List Nat) (c : Nat) (hA : A.length = 8) :
    storedByte (A ++ B) (c + 1) = storedByte B c := by
  refine storedByte_congr ?_
  intro k hk
  have h8 : (c + 1 + 1) * 8 - 8 + k = A.length + ((c + 1) * 8 - 8 + k) := by omega
  rw [h8, getD_append_right A B _ (by omega)]
  congr 1
  omega

/-- The assembly fold equals twice the MSB-first value of its eight bits,
    modulo 256: adding the bit before shifting pushes the first bit of each
    group out of the byte and leaves the low bit clear. -/
theorem storedByte_eq_double_msb (vd : List Nat) (c : Nat) :
    storedByte vd c = 2 * msbFirstVal vd c % 256 := by
  have hrange : List.range 8 = [0, 1, 2, 3, 4, 5, 6, 7] := by decide
  simp only [storedByte, msbFirstVal, hrange, List.foldl_cons, List.foldl_nil]
  norm_num
  omega

set_option maxRecDepth 16384 in
/-- The assembly fold applied to the MSB-first bit pattern of a byte value
    below 256 yields twice the value modulo 256. -/
theorem storedByte_bitsOfByte :
    ∀ v : Nat, v < 256 → storedByte (bitsOfByte v) 0 = 2 * v % 256 := by decide

/-! ### Claims -/

/-- C1: the claim asserts that for every raw buffer, including one with no
    bit-classified sample and one with exactly one, the decode stays in
    bounds and yields an empty frame.  On the code this fails: with no
    nonzero classified sample the forward scan exhausts all 100 entries
    (modelled as none) and the C loop keeps indexing past the array; with
    exactly one bit-classified sample both scans stop at the same index, the
    uint8_t adjustment wraps endBitIndex to 255, and the store loop would
    write 31 bytes into the 8-entry registerByte. -/
theorem relayADB_degenerate_scans_unsafe :
    startBitIndex? (classified (List.replicate 100 0)) = none ∧
    decodedBytes (fun _ => 0) (List.replicate 100 0) = none ∧
    startBitIndex? (classified singlePulseBuffer) = some 0 ∧
    endBitIndex? (classified singlePulseBuffer) = some 0 ∧
    endAdj 0 0 = 255 ∧
    viableBytes (endAdj 0 0) = 31 ∧
    8 < viableBytes (endAdj 0 0) := by decide

/-- C2: the claim asserts that an all-timeout buffer decodes to zero response
    bytes and that the per-cycle output count varies with the frame.  On the
    code the all-timeout buffer makes the start scan run off the buffer
    (modelled as none, not as zero bytes), and the serial stage always emits
    exactly 8 values: a frame carrying a single payload byte still produces
    an 8-entry output. -/
theorem relayADB_allTimeout_and_fixed_output :
    decodedBytes (fun _ => 0) (List.replicate 100 0) = none ∧
    relayADB (fun _ => 0) (List.replicate 8 0) oneByteFrame =
      some [254, 0, 0, 0, 0, 0, 0, 0] := by decide

/-- C3 counterexample: the claim asserts a three-way classification in which
    a duration inside the long-pulse window is a false bit, distinct from the
    non-bit category of timeout sentinels.  The code maps the long pulse 65
    and the timeout sentinel 0 to the same value 0: no third category
    exists. -/
theorem classifyDuration_longPulse_not_distinct :
    classifyDuration 65 = classifyDuration 0 ∧ classifyDuration 65 = 0 := by decide

/-- C3 amended: every recorded duration is classified independently into one
    of exactly two values: 1 when it lies in the short-pulse window [25, 45],
    and 0 otherwise, the single value shared by long pulses, timeout
    sentinels and out-of-window durations. -/
theorem classified_two_way (buf : List Nat) (i : Nat) (h : i < buf.length) :
    ((classified buf).getD i 0 = 1 ↔ 25 ≤ buf.getD i 0 ∧ buf.getD i 0 ≤ 45) ∧
    ((classified buf).getD i 0 = 0 ↔ ¬(25 ≤ buf.getD i 0 ∧ buf.getD i 0 ≤ 45)) := by
  rw [classified_getD]
  unfold classifyDuration
  by_cases hc : 25 ≤ buf.getD i 0 ∧ buf.getD i 0 ≤ 45 <;> simp [hc]

/-- Witness for classified_two_way at the concrete buffer [65, 0, 35] and
    index 0. -/
theorem classified_two_way_witness :
    ((classified [65, 0, 35]).getD 0 0 = 1 ↔
        25 ≤ ([65, 0, 35] : List Nat).getD 0 0 ∧
          ([65, 0, 35] : List Nat).getD 0 0 ≤ 45) ∧
    ((classified [65, 0, 35]).getD 0 0 = 0 ↔
        ¬(25 ≤ ([65, 0, 35] : List Nat).getD 0 0 ∧
          ([65, 0, 35] : List Nat).getD 0 0 ≤ 45)) :=
  classified_two_way [65, 0, 35] 0 (by decide)

/-- C5 counterexample: a buffer holding a start marker, the 24 bit cells of
    the bytes 0x01 0x00 0x00 and a stop marker decodes to [2, 0, 0], not to
    the injected [1, 0, 0]: the assembly loop doubles each byte value
    modulo 256. -/
theorem threeByte_value_mismatch :
    decodedBytes (fun _ => 0) (threeByteBuffer 1 0 0) ≠ some [1, 0, 0] ∧
    decodedBytes (fun _ => 0) (threeByteBuffer 1 0 0) = some [2, 0, 0] := by decide

/-- C7: transmitting any 8-bit command word emits exactly one attention pulse
    (low 800us), one sync pulse (high 65us), eight bit cells chosen by the
    word's bits most-significant first (true cell low 35us / high 65us, false
    cell low 65us / high 35us), and one stop pulse (low 70us, line then
    released high): a fixed-length sequence of 19 timed segments, independent
    of the word's value. -/
theorem sendCommandByte_wire_sequence (w : Nat) (h : w < 256) :
    sendCommandByte w =
      (Level.low, 800) :: (Level.high, 65) ::
        (specCell (bitRead w 7) ++ specCell (bitRead w 6) ++ specCell (bitRead w 5) ++
          specCell (bitRead w 4) ++ specCell (bitRead w 3) ++ specCell (bitRead w 2) ++
          specCell (bitRead w 1) ++ specCell (bitRead w 0) ++ [(Level.low, 70)]) ∧
    (sendCommandByte w).length = 19 := by
  have hcell : ∀ b : Bool, (if b then ADBtruePulse else ADBfalsePulse) = specCell b := by
    intro b; cases b <;> rfl
  have hrange : List.range 8 = [0, 1, 2, 3, 4, 5, 6, 7] := by decide
  have heq : sendCommandByte w =
      (Level.low, 800) :: (Level.high, 65) ::
        (specCell (bitRead w 7) ++ specCell (bitRead w 6) ++ specCell (bitRead w 5) ++
          specCell (bitRead w 4) ++ specCell (bitRead w 3) ++ specCell (bitRead w 2) ++
          specCell (bitRead w 1) ++ specCell (bitRead w 0) ++ [(Level.low, 70)]) := by
    simp only [sendCommandByte, binaryBoolArray, hrange, List.map_cons, List.map_nil,
      List.flatMap_cons, List.flatMap_nil, List.append_nil, hcell,
      ADBattention, ADBsync, ADBstartstopBit]
    norm_num [List.append_assoc]
  have hlen2 : ∀ b : Bool, (specCell b).length = 2 := by intro b; cases b <;> rfl
  refine ⟨heq, ?_⟩
  rw [heq]
  simp [hlen2]

/-- Witness for sendCommandByte_wire_sequence at the concrete word 0x3F. -/
theorem sendCommandByte_wire_sequence_witness :
    (sendCommandByte 63).length = 19 :=
  (sendCommandByte_wire_sequence 63 (by decide)).2

/-- C8: the single-bit round trip is the identity.  The low phase of the true
    cell lasts 35us and both receiver classifiers map it back to 1; the low
    phase of the false cell lasts 65us and both map it back to 0 (the
    part_000 classifier because 65 falls outside [25, 45], the adb_host.ino
    classifier because 65 falls in its explicit [60, 70] window, whatever the
    stale previous bit was). -/
theorem bit_roundtrip :
    ∀ b : Bool,
      classifyDuration (lowPhase (if b then ADBtruePulse else ADBfalsePulse)) =
        (if b then 1 else 0) ∧
      ∀ prev : Nat,
        classifyDurationIno (lowPhase (if b then ADBtruePulse else ADBfalsePulse)) prev =
          (if b then 1 else 0) := by
  intro b
  cases b <;> exact ⟨rfl, fun prev => rfl⟩

/-- C4: for every 100-sample buffer containing at least two bit-classified
    samples, the decode locates the start index as the first bit-classified
    sample scanning forward and the stop index as the last bit-classified
    sample scanning backward, and takes as payload exactly the classified
    samples strictly between those two indices, discarding the samples at the
    start index and at the stop index themselves. -/
theorem decode_frame_bounds (buf : List Nat) (mem : Nat → Nat)
    (hlen : buf.length = 100) (i j : Nat) (hij : i < j) (hj : j < 100)
    (hbi : (classified buf).getD i 0 ≠ 0)
    (hbj : (classified buf).getD j 0 ≠ 0) :
    ∃ s e, startBitIndex? (classified buf) = some s ∧
      endBitIndex? (classified buf) = some e ∧ s < e ∧
      (classified buf).getD s 0 ≠ 0 ∧
      (∀ k, k < s → (classified buf).getD k 0 = 0) ∧
      (classified buf).getD e 0 ≠ 0 ∧
      (∀ k, e < k → k < 100 → (classified buf).getD k 0 = 0) ∧
      viableData mem (classified buf) s (endAdj s e) =
        ((classified buf).drop (s + 1)).take (e - (s + 1)) := by
  have hclen : (classified buf).length = 100 := by simp [classified, hlen]
  obtain ⟨s, hs, hsi⟩ :=
    @startBitIndex?_le_of_nonzero (classified buf) i (by omega) hbi
  obtain ⟨e, he, hje⟩ :=
    @endBitIndex?_ge_of_nonzero (classified buf) j (by omega) hbj
  obtain ⟨hslen, hsne, hsz⟩ := startBitIndex?_spec hs
  obtain ⟨helen, hene, hez⟩ := endBitIndex?_spec he
  have hse : s < e := by omega
  refine ⟨s, e, hs, he, hse, hsne, hsz, hene, ?_, ?_⟩
  · intro k hk hk2
    exact hez k hk (by omega)
  · exact viableData_eq_slice mem (classified buf) s e hclen hse (by omega)

/-- Witness for decode_frame_bounds at the concrete buffer carrying the
    bytes 1, 2, 3, using the bit-classified samples at indices 0 and 25. -/
theorem decode_frame_bounds_witness :
    ∃ s e, startBitIndex? (classified (threeByteBuffer 1 2 3)) = some s ∧
      endBitIndex? (classified (threeByteBuffer 1 2 3)) = some e ∧ s < e ∧
      (classified (threeByteBuffer 1 2 3)).getD s 0 ≠ 0 ∧
      (∀ k, k < s → (classified (threeByteBuffer 1 2 3)).getD k 0 = 0) ∧
      (classified (threeByteBuffer 1 2 3)).getD e 0 ≠ 0 ∧
      (∀ k, e < k → k < 100 → (classified (threeByteBuffer 1 2 3)).getD k 0 = 0) ∧
      viableData (fun _ => 0) (classified (threeByteBuffer 1 2 3)) s (endAdj s e) =
        ((classified (threeByteBuffer 1 2 3)).drop (s + 1)).take (e - (s + 1)) :=
  decode_frame_bounds (threeByteBuffer 1 2 3) (fun _ => 0) (by decide) 0 25
    (by decide) (by decide) (by decide) (by decide)

/-- C6: the decoder truncates the recovered payload length down to the
    nearest multiple of 8 before byte assembly: the stored bytes number
    payload / 8 and are computed from the payload truncated to 8 * (payload /
    8) bits, so trailing bits that do not complete a byte are dropped and the
    decode still succeeds. -/
theorem decode_truncates_to_whole_bytes (mem : Nat → Nat) (buf : List Nat)
    (s e : Nat) (bytes : List Nat)
    (hs : startBitIndex? (classified buf) = some s)
    (he : endBitIndex? (classified buf) = some e)
    (hse : s < e) (hlen : buf.length = 100)
    (hb : decodedBytes mem buf = some bytes) :
    bytes.length = (e - (s + 1)) / 8 ∧
    bytes = (List.range ((e - (s + 1)) / 8)).map
      (storedByte ((viableData mem (classified buf) s (endAdj s e)).take
        (8 * ((e - (s + 1)) / 8)))) := by
  have hclen : (classified buf).length = 100 := by simp [classified, hlen]
  have he100 : e < 100 := by
    have := (endBitIndex?_spec he).1
    omega
  have hadj : endAdj s e = e - (s + 1) := by unfold endAdj; omega
  simp only [decodedBytes] at hb
  rw [hs, he] at hb
  simp only [Option.some.injEq] at hb
  subst hb
  refine ⟨by simp [viableBytes, hadj], ?_⟩
  simp only [viableBytes, hadj]
  refine List.map_congr_left ?_
  intro c hc
  rw [List.mem_range] at hc
  refine storedByte_congr ?_
  intro k hk
  rw [getD_take]
  omega

/-- Witness for decode_truncates_to_whole_bytes at the concrete buffer with a
    20-bit interior payload: exactly 2 response bytes, 4 trailing bits
    dropped. -/
theorem decode_truncates_witness :
    ([254, 254] : List Nat).length = (21 - (0 + 1)) / 8 :=
  (decode_truncates_to_whole_bytes (fun _ => 0) twentyBitFrame 0 21 [254, 254]
    (by decide) (by decide) (by decide) (by decide) (by decide)).1

/-- C9 counterexample: decoding oneByteFrame after an earlier decode of
    twoByteFrame yields a different serial output than decoding oneByteFrame
    from the startup state: the global registerByte keeps the second byte of
    the earlier frame in position 1. -/
theorem relayADB_hidden_state_cex :
    relayADB (fun _ => 0)
        ((relayADB (fun _ => 0) (List.replicate 8 0) twoByteFrame).getD
          (List.replicate 8 0))
        oneByteFrame ≠
      relayADB (fun _ => 0) (List.replicate 8 0) oneByteFrame := by decide

/-- C9 amended: the decoder is idempotent only in immediate succession.
    Decoding the same buffer twice in a row yields the same serial output,
    because the trailing registerByte entries are unchanged between the two
    calls; but the global registerByte persists, so output positions past the
    recovered byte count depend on earlier decodes of other buffers. -/
theorem relayADB_idempotent_same_buffer (mem : Nat → Nat) (reg buf out : List Nat)
    (h : relayADB mem reg buf = some out) :
    relayADB mem out buf = some out := by
  unfold relayADB at h ⊢
  cases hd : decodedBytes mem buf with
  | none =>
    rw [hd] at h
    simp at h
  | some fresh =>
    rw [hd] at h
    simp only [Option.map_some'] at h ⊢
    rw [Option.some.injEq] at h
    subst h
    congr 1
    apply List.ext_getElem
    · simp [registerByteAfter]
    · intro n h1 h2
      have hn8 : n < 8 := by simpa [registerByteAfter] using h1
      simp only [registerByteAfter, List.getElem_map, List.getElem_range]
      by_cases hf : n < fresh.length
      · simp [hf]
      · simp only [hf, if_false]
        rw [getD_map_range _ 8 n hn8]
        simp [hf]

/-- Witness for relayADB_idempotent_same_buffer: decoding oneByteFrame again
    from the state its own decode left behind reproduces the same output. -/
theorem relayADB_idempotent_witness :
    relayADB (fun _ => 0) [254, 0, 0, 0, 0, 0, 0, 0] oneByteFrame =
      some [254, 0, 0, 0, 0, 0, 0, 0] :=
  relayADB_idempotent_same_buffer (fun _ => 0) (List.replicate 8 0) oneByteFrame
    [254, 0, 0, 0, 0, 0, 0, 0] (by decide)

/-- C10: every response byte the decoder stores is produced by the
    add-then-shift loop, so it equals twice the MSB-first value of its eight
    payload bits modulo 256; in particular its least significant bit is 0 and
    every stored byte is even. -/
theorem decode_bytes_even_and_doubled (mem : Nat → Nat) (buf bytes : List Nat)
    (h : decodedBytes mem buf = some bytes) :
    (∀ b ∈ bytes, b % 2 = 0) ∧
    (∀ s e, startBitIndex? (classified buf) = some s →
      endBitIndex? (classified buf) = some e →
      ∀ c, c < bytes.length →
        bytes.getD c 0 =
          2 * msbFirstVal (viableData mem (classified buf) s (endAdj s e)) c % 256) := by
  simp only [decodedBytes] at h
  cases hs0 : startBitIndex? (classified buf) with
  | none =>
    rw [hs0] at h
    simp at h
  | some s0 =>
    cases he0 : endBitIndex? (classified buf) with
    | none =>
      rw [hs0, he0] at h
      simp at h
    | some e0 =>
      rw [hs0, he0] at h
      simp only [Option.some.injEq] at h
      subst h
      constructor
      · intro b hb
        rw [List.mem_map] at hb
        obtain ⟨c, _, hc⟩ := hb
        rw [← hc, storedByte_eq_double_msb]
        omega
      · intro s e hs he c hcl
        rw [Option.some.injEq] at hs
        rw [Option.some.injEq] at he
        subst hs
        subst he
        have hc8 : c < viableBytes (endAdj s0 e0) := by simpa using hcl
        rw [getD_map_range _ _ c hc8]
        exact storedByte_eq_double_msb _ c

/-- Witness for decode_bytes_even_and_doubled at the concrete buffer carrying
    the bytes 1, 0, 0: the first stored byte equals twice the MSB-first value
    of its payload bits modulo 256. -/
theorem decode_bytes_even_witness :
    ([2, 0, 0] : List Nat).getD 0 0 =
      2 * msbFirstVal (viableData (fun _ => 0) (classified (threeByteBuffer 1 0 0)) 0
        (endAdj 0 25)) 0 % 256 :=
  (decode_bytes_even_and_doubled (fun _ => 0) (threeByteBuffer 1 0 0) [2, 0, 0]
    (by decide)).2 0 25 (by decide) (by decide) 0 (by decide)

set_option maxRecDepth 16384 in
/-- C5 amended: a buffer holding one start marker, the 24 bit cells of three
    injected bytes and one stop marker decodes to exactly 3 response bytes in
    original order, each group of 8 payload bits read MSB-first, but every
    stored byte equals the injected byte value shifted left one bit modulo
    256 (twice the value), not the value itself. -/
theorem threeByte_decode_doubled (v0 v1 v2 : Nat)
    (h0 : v0 < 256) (h1 : v1 < 256) (h2 : v2 < 256) (mem : Nat → Nat) :
    decodedBytes mem (threeByteBuffer v0 v1 v2) =
      some [2 * v0 % 256, 2 * v1 % 256, 2 * v2 % 256] := by
  have hlb : ∀ v : Nat, (bitsOfByte v).length = 8 := by
    intro v
    simp [bitsOfByte]
  have hbyte := storedByte_bitsOfByte
  have h35 : classifyDuration 35 = 1 := rfl
  have hz : classifyDuration 0 = 0 := rfl
  have hcell : ∀ v : Nat,
      List.map classifyDuration (cellDurations v) = bitsOfByte v := by
    intro v
    unfold cellDurations bitsOfByte
    rw [List.map_map]
    refine List.map_congr_left ?_
    intro k _
    by_cases hb : v.testBit (7 - k) <;> simp [hb, Function.comp, classifyDuration]
  have hcls : classified (threeByteBuffer v0 v1 v2) =
      1 :: (bitsOfByte v0 ++ (bitsOfByte v1 ++ (bitsOfByte v2 ++
        (1 :: List.replicate 74 0)))) := by
    unfold classified threeByteBuffer
    simp only [List.map_cons, List.map_append, List.map_replicate, hcell, h35, hz,
      List.append_assoc]
  have hclslen : (classified (threeByteBuffer v0 v1 v2)).length = 100 := by
    rw [hcls]
    simp [hlb]
  have hs : startBitIndex? (classified (threeByteBuffer v0 v1 v2)) = some 0 := by
    rw [hcls]
    unfold startBitIndex?
    rw [List.findIdx?_cons]
    simp
  have hfi : ((1 : Nat) :: (bitsOfByte v0 ++ (bitsOfByte v1 ++ (bitsOfByte v2 ++
      (1 :: List.replicate 74 0))))).reverse.findIdx? (fun b => b != 0) = some 74 := by
    simp [List.reverse_cons, List.reverse_append, List.findIdx?_append,
      List.findIdx?_replicate, List.findIdx?_cons]
  have he : endBitIndex? (classified (threeByteBuffer v0 v1 v2)) = some 25 := by
    unfold endBitIndex?
    rw [hcls, hfi, Option.map_some']
    congr 1
  have htake : ∀ (A B : List Nat), A.length = 24 → (A ++ B).take 24 = A := by
    intro A B hA
    rw [← hA, List.take_left]
  have hassoc : bitsOfByte v0 ++ (bitsOfByte v1 ++ (bitsOfByte v2 ++
      (1 :: List.replicate 74 0))) =
      (bitsOfByte v0 ++ (bitsOfByte v1 ++ bitsOfByte v2)) ++
        (1 :: List.replicate 74 0) := by
    simp [List.append_assoc]
  have hvd : viableData mem (classified (threeByteBuffer v0 v1 v2)) 0 (endAdj 0 25) =
      bitsOfByte v0 ++ (bitsOfByte v1 ++ bitsOfByte v2) := by
    rw [viableData_eq_slice mem _ 0 25 hclslen (by omega) (by omega)]
    rw [hcls]
    norm_num
    rw [hassoc, htake _ _ (by simp [hlb])]
  have hvb : viableBytes (endAdj 0 25) = 3 := by decide
  have e0 : storedByte (bitsOfByte v0 ++ (bitsOfByte v1 ++ bitsOfByte v2)) 0 =
      2 * v0 % 256 := by
    rw [storedByte_append_first _ _ (hlb v0)]
    exact hbyte v0 h0
  have e1 : storedByte (bitsOfByte v0 ++ (bitsOfByte v1 ++ bitsOfByte v2)) 1 =
      2 * v1 % 256 := by
    have hsh := storedByte_group_shift (bitsOfByte v0) (bitsOfByte v1 ++ bitsOfByte v2)
      0 (hlb v0)
    norm_num at hsh
    rw [hsh, storedByte_append_first _ _ (hlb v1)]
    exact hbyte v1 h1
  have e2 : storedByte (bitsOfByte v0 ++ (bitsOfByte v1 ++ bitsOfByte v2)) 2 =
      2 * v2 % 256 := by
    have hsh := storedByte_group_shift (bitsOfByte v0) (bitsOfByte v1 ++ bitsOfByte v2)
      1 (hlb v0)
    norm_num at hsh
    have hsh2 := storedByte_group_shift (bitsOfByte v1) (bitsOfByte v2) 0 (hlb v1)
    norm_num at hsh2
    rw [hsh, hsh2]
    exact hbyte v2 h2
  simp only [decodedBytes]
  rw [hs, he]
  show some ((List.range (viableBytes (endAdj 0 25))).map
      (storedByte (viableData mem (classified (threeByteBuffer v0 v1 v2)) 0
        (endAdj 0 25)))) =
    some [2 * v0 % 256, 2 * v1 % 256, 2 * v2 % 256]
  rw [hvd, hvb]
  rw [show List.range 3 = [0, 1, 2] from by decide]
  simp only [List.map_cons, List.map_nil]
  rw [e0, e1, e2]

/-- Witness for threeByte_decode_doubled at the concrete bytes 255, 170, 1. -/
theorem threeByte_decode_doubled_witness :
    decodedBytes (fun _ => 0) (threeByteBuffer 255 170 1) =
      some [2 * 255 % 256, 2 * 170 % 256, 2 * 1 % 256] :=
  threeByte_decode_doubled 255 170 1 (by decide) (by decide) (by decide) (fun _ => 0)

end ADB
